import Mathlib

/-!
Verification development for the modality-estimation core of the flotilla
repository (src/flotilla/compute/splicing.py).

Conventions of the shallow embedding:
* A pandas samples x events DataFrame of PSI scores is a list of columns,
  each column a name paired with the list of cell values down the rows;
  a missing value (NaN) is `none`, a present value is `some q` with `q : ℚ`.
* Floating-point numbers produced by the divergence computation are
  modelled as real numbers; NaN results are modelled structurally by
  `Option ℝ` (`none` = NaN), mirroring pandas/numpy NaN propagation.
* `flotilla.compute.infotheory.binify` and `.jsd`, and `flotilla.util.memoize`,
  are repository modules that are not part of the given sources; `binify` and
  `jsd` are modelled from the spec (sections 4.1 and 4.2) as noted on their
  definitions.  The `memoize` decorator affects only caching and is not
  modelled.
* `sklearn.cross_validation.Bootstrap` is an external collaborator; it is
  modelled from its documented behaviour: per trial it permutes the `n` row
  positions, splits them into a train pool of size `ceil(n/2)` and a test
  pool of the remaining positions, and draws with replacement from each
  pool (a pool-sized sample each); the random choices are passed in
  explicitly as a `TrialDraw`.
-/

/-- A samples x events PSI matrix: list of (event name, column of optional
PSI values), one entry per row (sample). -/
abbrev Psi : Type := List (String × List (Option ℚ))

/-- Number of rows (`data.shape[0]`): length of the first column
(all columns of a DataFrame have equal length). -/
def nRows (data : Psi) : ℕ := (data.head?.map (fun c => c.2.length)).getD 0

/-- Count of non-missing entries of one column (used by `dropna(thresh=...)`). -/
def countNonMissing (col : List (Option ℚ)) : ℕ := col.countP (·.isSome)

/-- Modelled from the spec: `flotilla.compute.infotheory.binify` is not under
src/.  Per section 4.1, for one event column it counts the non-missing values
falling in each of the 3 half-open bins given by edges `(0, excluded_max,
included_min, 1)` — lower edge exclusive except for the first bin, upper edge
inclusive — and divides by the number of binned values; a column with zero
binned values has an undefined (missing) fraction vector, modelled as `none`. -/
def binifyCol (bins : ℚ × ℚ × ℚ × ℚ) (col : List (Option ℚ)) : Option (ℚ × ℚ × ℚ) :=
  let vs := col.filterMap id
  let e0 := bins.1
  let e1 := bins.2.1
  let e2 := bins.2.2.1
  let e3 := bins.2.2.2
  let c0 := vs.countP (fun v => decide (e0 ≤ v ∧ v ≤ e1))
  let c1 := vs.countP (fun v => decide (e1 < v ∧ v ≤ e2))
  let c2 := vs.countP (fun v => decide (e2 < v ∧ v ≤ e3))
  let t := c0 + c1 + c2
  if t = 0 then none
  else some ((c0 : ℚ) / (t : ℚ), (c1 : ℚ) / (t : ℚ), (c2 : ℚ) / (t : ℚ))

/-- Modelled from the spec: the row index the binned bins x events frame
carries (section 4.1 produces one row per bin); the rows are labelled by the
lower edges of the three bins.  `Modalities._single_fit_transform` assigns
this index to the class-shared reference table (splicing.py line 160). -/
def binifyIndex (bins : ℚ × ℚ × ℚ × ℚ) : List ℚ := [bins.1, bins.2.1, bins.2.2.1]

/-- Coerce a rational bin-occupancy triple to real numbers. -/
noncomputable def ratDist (d : ℚ × ℚ × ℚ) : ℝ × ℝ × ℝ := ((d.1 : ℝ), (d.2.1 : ℝ), (d.2.2 : ℝ))

/-- Normalize a 3-component mass vector to sum to 1 (part of the spec's
divergence contract, section 4.2). -/
noncomputable def normalize3 (p : ℝ × ℝ × ℝ) : ℝ × ℝ × ℝ :=
  let s := p.1 + p.2.1 + p.2.2
  (p.1 / s, p.2.1 / s, p.2.2 / s)

/-- One Kullback-Leibler summand with the spec's convention that a
zero-probability term contributes 0. -/
noncomputable def klTerm (p m : ℝ) : ℝ := if p = 0 then 0 else p * Real.log (p / m)

/-- Kullback-Leibler sum over the 3 bins. -/
noncomputable def kl3 (p m : ℝ × ℝ × ℝ) : ℝ :=
  klTerm p.1 m.1 + klTerm p.2.1 m.2.1 + klTerm p.2.2 m.2.2

/-- Modelled from the spec: `flotilla.compute.infotheory.jsd` is not under
src/.  Per section 4.2: both arguments are first normalized to sum to 1,
`M = (P + Q) / 2`, and `JSD(P,Q) = 0.5 KL(P||M) + 0.5 KL(Q||M)`. -/
noncomputable def jsd (p q : ℝ × ℝ × ℝ) : ℝ :=
  let pn := normalize3 p
  let qn := normalize3 q
  let m := ((pn.1 + qn.1) / 2, (pn.2.1 + qn.2.1) / 2, (pn.2.2 + qn.2.2) / 2)
  (kl3 pn m + kl3 qn m) / 2

/-- splicing.py lines 43-50: the five reference modalities, as the ordered
columns of `Modalities.true_modalities` (each paired with its raw 0/1
bin-occupancy pattern, the columns of `modalities_bins.T`). -/
def trueModalities : List (String × (ℚ × ℚ × ℚ)) :=
  [("excluded", (1, 0, 0)),
   ("middle", (0, 1, 0)),
   ("included", (0, 0, 1)),
   ("bimodal", (1, 0, 1)),
   ("uniform", (1, 1, 1))]

/-- splicing.py lines 49-50: `modalities_names`, the fixed column order of the
reference table. -/
def modalitiesNames : List String := ["excluded", "middle", "included", "bimodal", "uniform"]

/-- splicing.py lines 57-93 (`_col_jsd_modalities` composed with
`sqrt_jsd_modalities`): the square-root Jensen-Shannon divergence of one
binned event column to each reference modality, in the reference table's
column order.  An undefined binned column (NaN) propagates to NaN (`none`)
divergences against every modality. -/
noncomputable def sqrtJsdCol (table : List (String × (ℚ × ℚ × ℚ)))
    (b : Option (ℚ × ℚ × ℚ)) : List (Option ℝ) :=
  table.map (fun m => b.map (fun p => Real.sqrt (jsd (ratDist p) (ratDist m.2))))

/-- The real divergence values of a defined binned column to each modality. -/
noncomputable def divergencesOf (table : List (String × (ℚ × ℚ × ℚ)))
    (d : ℚ × ℚ × ℚ) : List ℝ :=
  table.map (fun m => Real.sqrt (jsd (ratDist d) (ratDist m.2)))

/-- First-occurrence argmin of a list of reals, as numpy's `argmin` computes
it for NaN-free data: scan left to right, replacing the current best only on
a strictly smaller value. -/
noncomputable def argminReal : List ℝ → ℕ
  | [] => 0
  | x :: xs =>
    match xs with
    | [] => 0
    | _ :: _ => if x ≤ xs.getD (argminReal xs) 0 then 0 else argminReal xs + 1

/-- Position of the first `none` (NaN) entry, if any. -/
def firstNoneIdx : List (Option ℝ) → Option ℕ
  | [] => none
  | none :: _ => some 0
  | some _ :: rest => (firstNoneIdx rest).map (fun i => i + 1)

/-- numpy's `argmin` over a float column that may hold NaNs (`none`): if any
NaN is present the index of the first NaN is returned (numpy propagates NaN
as the minimum), otherwise the first-occurrence argmin of the values. -/
noncomputable def npArgmin (l : List (Option ℝ)) : ℕ :=
  match firstNoneIdx l with
  | some i => i
  | none => argminReal (l.filterMap id)

/-- splicing.py lines 95-111 (`Modalities.assignments`) specialised to one
event: `true_modalities.columns[np.argmin(column of sqrt JSD values)]`. -/
noncomputable def assignCol (table : List (String × (ℚ × ℚ × ℚ)))
    (bins : ℚ × ℚ × ℚ × ℚ) (col : List (Option ℚ)) : String :=
  (table.map (fun m => m.1)).getD (npArgmin (sqrtJsdCol table (binifyCol bins col))) ""

/-- splicing.py lines 142-161 (`_single_fit_transform`) minus the class-state
write: bin every event and assign each the closest modality. -/
noncomputable def singleAssignments (table : List (String × (ℚ × ℚ × ℚ)))
    (bins : ℚ × ℚ × ℚ × ℚ) (data : Psi) : List (String × String) :=
  data.map (fun c => (c.1, assignCol table bins c.2))

/-- splicing.py line 11: the `Modalities` estimator; its only instance state
is the bin-edge tuple set by `__init__`. -/
structure Modalities where
  bins : ℚ × ℚ × ℚ × ℚ
deriving DecidableEq

/-- splicing.py lines 54-55 (`Modalities.__init__`): stores
`(0, excluded_max, included_min, 1)`; no validation is performed. -/
def Modalities.init (excluded_max included_min : ℚ) : Modalities :=
  ⟨(0, excluded_max, included_min, 1)⟩

/-- The default configuration `Modalities()` = `Modalities(0.2, 0.8)`. -/
def defaultBins : ℚ × ℚ × ℚ × ℚ := (0, 1/5, 4/5, 1)

/-- The mutable Python state visible to the estimator: the caller's input
DataFrame and the class-shared `true_modalities` reference table, split into
its row index (mutated by splicing.py line 160) and its column contents. -/
structure PyState where
  data : Psi
  clsIndex : List ℚ
  clsTable : List (String × (ℚ × ℚ × ℚ))
deriving DecidableEq

/-- splicing.py lines 142-161 (`_single_fit_transform`) as a state
transformer: computes `binned`, reassigns the class-shared reference table's
index to `binned.index` (line 160), and returns the assignments. -/
noncomputable def singleFitSt (inst : Modalities) (st : PyState) (data : Psi) :
    PyState × List (String × String) :=
  ({ st with clsIndex := binifyIndex inst.bins },
   singleAssignments st.clsTable inst.bins data)

/-- One trial's random choices for the modelled
`sklearn.cross_validation.Bootstrap` iterator: the row permutation and the
with-replacement draws (as positions into the train and test pools). -/
structure TrialDraw where
  perm : List ℕ
  trainDraws : List ℕ
  testDraws : List ℕ
deriving DecidableEq, Inhabited

/-- Bootstrap's train pool size for `n` rows: `int(ceil(0.5 * n))`. -/
def trainSize (n : ℕ) : ℕ := (n + 1) / 2

/-- A `TrialDraw` is a possible output of the random number generator for
`n` rows: the permutation is one of `range(n)`, and the draws index into the
train pool (respectively test pool) and have the pool's size. -/
def validDraw (n : ℕ) (d : TrialDraw) : Prop :=
  d.perm.Perm (List.range n) ∧
  d.trainDraws.length = trainSize n ∧ (∀ i ∈ d.trainDraws, i < trainSize n) ∧
  d.testDraws.length = n - trainSize n ∧ (∀ i ∈ d.testDraws, i < n - trainSize n)

instance (n : ℕ) (d : TrialDraw) : Decidable (validDraw n d) := by
  unfold validDraw; infer_instance

/-- Bootstrap's `train_index` for one trial: the with-replacement resample of
the train pool (the first `trainSize n` entries of the permutation). -/
def bsTrainIdx (n : ℕ) (d : TrialDraw) : List ℕ :=
  d.trainDraws.map (fun i => (d.perm.take (trainSize n)).getD i 0)

/-- Bootstrap's `test_index` for one trial: the with-replacement resample of
the test pool (the remaining entries of the permutation). -/
def bsTestIdx (n : ℕ) (d : TrialDraw) : List ℕ :=
  d.testDraws.map (fun i => (d.perm.drop (trainSize n)).getD i 0)

/-- numpy `+` on two integer index arrays: elementwise addition, failing
(broadcast error) when the lengths differ.  This is what splicing.py line 174
`index = train_index + test_index` computes. -/
def npAddIndex (a b : List ℕ) : Option (List ℕ) :=
  if a.length = b.length then some (List.zipWith (fun x y => x + y) a b) else none

/-- The row positions splicing.py line 174 produces for one trial. -/
def trialPositions (n : ℕ) (d : TrialDraw) : Option (List ℕ) :=
  npAddIndex (bsTrainIdx n d) (bsTestIdx n d)

/-- splicing.py line 175 `data.ix[data.index[index], :]`: select the rows at
the given positions (in order, duplicates allowed); a position at or beyond
the number of rows raises an IndexError, modelled as `none`. -/
def selectRows (data : Psi) (pos : List ℕ) : Option Psi :=
  if ∀ i ∈ pos, i < nRows data then
    some (data.map (fun c => (c.1, pos.map (fun i => c.2.getD i none))))
  else none

/-- splicing.py line 176 `psi.dropna(axis=1, thresh=min_samples)`: keep only
the events with at least `min_samples` non-missing values. -/
def dropColsThresh (minS : ℕ) (data : Psi) : Psi :=
  data.filter (fun c => decide (minS ≤ countNonMissing c.2))

/-- splicing.py lines 173-176: build one trial's sub-matrix. -/
def trialMatrix (data : Psi) (minS n : ℕ) (d : TrialDraw) : Option Psi :=
  (trialPositions n d).bind (fun pos => (selectRows data pos).map (dropColsThresh minS))

/-- splicing.py lines 173-178 as a state transformer: run the trials in
order; each trial builds its sub-matrix and runs `_single_fit_transform` on
it (mutating the class-shared index, splicing.py line 160); a failing trial
aborts the whole call (the exception propagates) keeping the mutations made
so far.  Returns the per-trial sub-matrices on success. -/
noncomputable def bootLoopSt (inst : Modalities) (minS n : ℕ) :
    PyState → List TrialDraw → PyState × Option (List Psi)
  | st, [] => (st, some [])
  | st, d :: rest =>
    match trialMatrix st.data minS n d with
    | none => (st, none)
    | some t =>
      let st1 := { st with clsIndex := binifyIndex inst.bins }
      let r := bootLoopSt inst minS n st1 rest
      (r.1, r.2.map (fun ts => t :: ts))

/-- The votes one event receives across the trials: trial `i`'s assignment
row is aligned to the full event set by name (splicing.py lines 170-178), so
an event dropped from a trial gets a missing vote (`none`). -/
noncomputable def votesFor (table : List (String × (ℚ × ℚ × ℚ)))
    (bins : ℚ × ℚ × ℚ × ℚ) (trials : List Psi) (e : String) : List (Option String) :=
  trials.map (fun t => List.lookup e (singleAssignments table bins t))

/-- The Counter entry `collections.Counter(x.dropna())[m]` for one event's vote column:
how many trials assigned modality `m`. -/
def voteCount (votes : List (Option String)) (m : String) : ℕ :=
  votes.countP (fun v => v == some m)

/-- The column total `counts.sum()` for one event's vote column: the number of non-dropped
votes (trials in which the event was present). -/
def voteTotal (votes : List (Option String)) : ℕ := votes.countP (·.isSome)

/-- The entry of `fractions = counts / counts.sum()` for one event and one modality. -/
def fractionOf (votes : List (Option String)) (m : String) : ℚ :=
  (voteCount votes m : ℚ) / (voteTotal votes : ℚ)

/-- One entry of `fractions[fractions >= thresh]` (splicing.py line 183): a
modality with no votes has a NaN count (it is absent from the Counter), and a
fraction below the threshold is masked to NaN. -/
def maskedFraction (thresh : ℚ) (votes : List (Option String)) (m : String) : Option ℚ :=
  if 0 < voteCount votes m ∧ thresh ≤ fractionOf votes m
  then some (fractionOf votes m) else none

/-- First occurrence of the maximum value (pandas idxmax over the non-NaN
entries, as used by `np.argmax` on a labelled Series in
`Modalities._max_assignment`, splicing.py lines 188-207). -/
def pickMax : List (String × ℚ) → Option (String × ℚ)
  | [] => none
  | p :: rest =>
    match pickMax rest with
    | none => some p
    | some q => if q.2 ≤ p.2 then some p else some q

/-- splicing.py lines 188-207 (`_max_assignment`): given the masked fraction
series whose index (the Counter's key order) is `order`, return the label of
the maximum non-NaN entry, or NaN (`none`) when every entry is NaN. -/
def maxAssignment (order : List String) (f : String → Option ℚ) : Option String :=
  (pickMax (order.filterMap (fun m => (f m).map (fun v => (m, v))))).map (fun p => p.1)

/-- splicing.py lines 180-186: the consensus assignment of one event from its
vote column — masked fractions, `_max_assignment`, then `fillna('unassigned')`. -/
def tallyVotes (order : List String) (thresh : ℚ) (votes : List (Option String)) : String :=
  (maxAssignment order (maskedFraction thresh votes)).getD "unassigned"

/-- splicing.py lines 163-186 (`_bootstrapped_fit_transform`) as a state
transformer.  `n_iter` is the Python int argument (the loop body runs
`max n_iter 0` times); `draws` supplies the random choices of trial `i` at
position `i`; `orders` gives, per event, the iteration order of that event's
Counter keys (a Python dict order, not semantically fixed). -/
noncomputable def bootstrappedFitTransformSt (inst : Modalities) (st : PyState)
    (n_iter : ℤ) (thresh : ℚ) (minS : ℕ) (draws : List TrialDraw)
    (orders : String → List String) : PyState × Option (List (String × String)) :=
  let n := nRows st.data
  let ds := (List.range n_iter.toNat).map (fun i => draws.getD i default)
  let r := bootLoopSt inst minS n st ds
  (r.1, r.2.map (fun trials =>
    st.data.map (fun c =>
      (c.1, tallyVotes (orders c.1) thresh (votesFor st.clsTable inst.bins trials c.1)))))

/-- splicing.py lines 113-140 (`fit_transform`): dispatch on `bootstrapped`.
The `@memoize` wrapper (flotilla.util, not under src/) affects caching only
and is not modelled. -/
noncomputable def fitTransformSt (inst : Modalities) (st : PyState)
    (bootstrapped : Bool) (n_iter : ℤ) (thresh : ℚ) (minS : ℕ)
    (draws : List TrialDraw) (orders : String → List String) :
    PyState × Option (List (String × String)) :=
  if bootstrapped then
    bootstrappedFitTransformSt inst st n_iter thresh minS draws orders
  else
    let r := singleFitSt inst st st.data
    (r.1, some r.2)

/-- The grouping `assignments.groupby(assignments).size()` (splicing.py line 223) as a
count per label: the number of events whose assignment equals the label;
events with a missing (NaN) assignment belong to no group. -/
def groupbySize (a : List (String × Option String)) (l : String) : ℕ :=
  a.countP (fun p => p.2 == some l)

/-- splicing.py lines 209-223 (`Modalities.counts`): run `fit_transform` and
group the resulting assignment series by its values, counting group sizes. -/
noncomputable def countsSt (inst : Modalities) (st : PyState)
    (bootstrapped : Bool) (n_iter : ℤ) (thresh : ℚ) (minS : ℕ)
    (draws : List TrialDraw) (orders : String → List String) :
    PyState × Option (String → ℕ) :=
  let r := fitTransformSt inst st bootstrapped n_iter thresh minS draws orders
  (r.1, r.2.map (fun A => groupbySize (A.map (fun p => (p.1, some p.2)))))

/-- numpy mean (`np.mean`) of a 1-D float array, for nonempty NaN-free data. -/
noncomputable def meanR (l : List ℝ) : ℝ := l.sum / l.length

/-- numpy population variance (the square of `np.std`) of a 1-D float array, for
nonempty NaN-free data. -/
noncomputable def varR (l : List ℝ) : ℝ :=
  ((l.map (fun x => (x - meanR l) ^ 2)).sum) / l.length

/-- numpy standard deviation (`np.std`) of a 1-D float array: square root of the population variance. -/
noncomputable def stdR (l : List ℝ) : ℝ := Real.sqrt (varR l)

/-- splicing.py lines 226-248 (`switchy_score`): over the non-missing
entries, `(1 - std(sin(v*pi))) * (-mean(cos(v*pi)))`; with no non-missing
entries `np.std` and `np.mean` of the empty selection are NaN, so the score
is NaN (`none`). -/
noncomputable def switchy_score (arr : List (Option ℝ)) : Option ℝ :=
  match arr.filterMap id with
  | [] => none
  | v =>
    some ((1 - stdR (v.map (fun x => Real.sin (x * Real.pi)))) *
      (-(meanR (v.map (fun x => Real.cos (x * Real.pi))))))

/-- The strict order `np.argsort` sorts float entries by, with NaN (`none`)
sorting after every number. -/
def ltOpt (x y : Option ℝ) : Prop :=
  match x, y with
  | some a, some b => a < b
  | some _, none => True
  | none, _ => False

noncomputable instance (x y : Option ℝ) : Decidable (ltOpt x y) := by
  cases x <;> cases y <;> simp only [ltOpt] <;> infer_instance

/-- Insert index `i` into an index list sorted ascending by score. -/
noncomputable def scoreInsert (scores : List (Option ℝ)) (i : ℕ) :
    List ℕ → List ℕ
  | [] => [i]
  | j :: rest =>
    if ltOpt (scores.getD i none) (scores.getD j none) then i :: j :: rest
    else j :: scoreInsert scores i rest

/-- numpy argsort (`np.argsort`) over a float vector: the permutation of positions that sorts
the values ascending (NaN last).  Modelled as an insertion sort over the
positions; the order among exactly-tied values is not semantically fixed by
the source (numpy uses an unstable quicksort). -/
noncomputable def npArgsort (scores : List (Option ℝ)) : List ℕ :=
  (List.range scores.length).foldl (fun acc i => scoreInsert scores i acc) []

/-- splicing.py lines 251-265 (`get_switchy_score_order`):
`np.apply_along_axis(switchy_score, axis=0, x)` scores each column (event),
and `np.argsort` returns the event order ascending by score.  The matrix is
given as its list of columns. -/
noncomputable def get_switchy_score_order (cols : List (List (Option ℝ))) : List ℕ :=
  npArgsort (cols.map switchy_score)

/-- The spec's configuration validity predicate (sections 6 and 7), written
from the spec's words for comparison with the code:
`0 <= excluded_max < included_min <= 1`, `n_iter > 0`, `thresh` in `(0,1]`. -/
def specConfigValid (excluded_max included_min : ℚ) (n_iter : ℤ) (thresh : ℚ) : Bool :=
  decide ((0 ≤ excluded_max ∧ excluded_max < included_min ∧ included_min ≤ 1) ∧
    0 < n_iter ∧ (0 < thresh ∧ thresh ≤ 1))

/-- The spec's end-to-end example column (section 8, property 6): ten PSI
values all in the excluded bin. -/
def exampleCol : List (Option ℚ) :=
  [some (1/100), some (2/100), some (5/100), some (3/100), some (1/100),
   some (2/100), some (4/100), some (1/100), some (2/100), some (3/100)]

/-- A 2-sample, 1-event matrix used to exercise the bootstrap row selection. -/
def psiTwo : Psi := [("event1", [some 0, some 1])]

/-- A 2-sample, 1-event matrix whose only event has no data at all. -/
def psiNoData : Psi := [("event1", [none, none])]

/-- A concrete RNG outcome for 2 rows: identity permutation, and the (only
possible) draws from the two singleton pools. -/
def drawTwo : TrialDraw := ⟨[0, 1], [0], [0]⟩

/-- An initial Python state: the caller's matrix, the reference table with
its original default `RangeIndex` `[0, 1, 2]`, and the reference columns. -/
def initState (data : Psi) : PyState := ⟨data, [0, 1, 2], trueModalities⟩

/-! ### Helper lemmas -/

theorem argminReal_spec (l : List ℝ) (h : l ≠ []) :
    argminReal l < l.length ∧
    (∀ j, j < l.length → l.getD (argminReal l) 0 ≤ l.getD j 0) ∧
    (∀ k, k < argminReal l → l.getD (argminReal l) 0 < l.getD k 0) := by
  induction l with
  | nil => exact absurd rfl h
  | cons x xs ih =>
    cases xs with
    | nil =>
      refine ⟨by simp [argminReal], ?_, ?_⟩
      · intro j hj
        simp only [List.length_cons, List.length_nil] at hj
        have hj0 : j = 0 := by omega
        subst hj0
        simp [argminReal]
      · intro k hk
        simp [argminReal] at hk
    | cons y ys =>
      obtain ⟨ih1, ih2, ih3⟩ := ih (by simp)
      have hdef : argminReal (x :: y :: ys) =
          if x ≤ (y :: ys).getD (argminReal (y :: ys)) 0 then 0
          else argminReal (y :: ys) + 1 := by
        conv_lhs => rw [argminReal]
      by_cases hx : x ≤ (y :: ys).getD (argminReal (y :: ys)) 0
      · rw [hdef, if_pos hx]
        refine ⟨by simp, ?_, ?_⟩
        · intro j hj
          cases j with
          | zero => exact le_refl _
          | succ k =>
            simp only [List.getD_cons_zero, List.getD_cons_succ]
            exact le_trans hx (ih2 k (by simpa using hj))
        · intro k hk
          exact absurd hk (Nat.not_lt_zero k)
      · rw [hdef, if_neg hx]
        push_neg at hx
        refine ⟨by simpa using ih1, ?_, ?_⟩
        · intro j hj
          cases j with
          | zero =>
            simp only [List.getD_cons_zero, List.getD_cons_succ]
            exact hx.le
          | succ k =>
            simp only [List.getD_cons_succ]
            exact ih2 k (by simpa using hj)
        · intro k hk
          cases k with
          | zero =>
            simp only [List.getD_cons_zero, List.getD_cons_succ]
            exact hx
          | succ k =>
            simp only [List.getD_cons_succ]
            exact ih3 k (by simpa using hk)

theorem firstNoneIdx_map_some (l : List ℝ) : firstNoneIdx (l.map some) = none := by
  induction l with
  | nil => rfl
  | cons x xs ih => simp [firstNoneIdx, ih]

theorem npArgmin_map_some (l : List ℝ) : npArgmin (l.map some) = argminReal l := by
  unfold npArgmin
  rw [firstNoneIdx_map_some]
  simp

theorem sqrtJsdCol_some (table : List (String × (ℚ × ℚ × ℚ))) (d : ℚ × ℚ × ℚ) :
    sqrtJsdCol table (some d) = (divergencesOf table d).map some := by
  simp only [sqrtJsdCol, divergencesOf, List.map_map]
  rfl

/-! ### Claim theorems -/

/-- C1: Single-pass estimation assigns every event with a defined binned
distribution the modality at the strict first-occurrence argmin of the five
square-root Jensen-Shannon divergences, under the reference table's fixed
column order excluded, middle, included, bimodal, uniform
(`modalitiesNames`): the chosen index is minimal among all five divergence
values, and every earlier index has a strictly larger divergence. -/
theorem C1_single_pass_argmin (bins : ℚ × ℚ × ℚ × ℚ) (data : Psi) :
    singleAssignments trueModalities bins data =
      data.map (fun c => (c.1, assignCol trueModalities bins c.2)) ∧
    ∀ col d, binifyCol bins col = some d →
      ∃ i, i < modalitiesNames.length ∧
        assignCol trueModalities bins col = modalitiesNames.getD i "" ∧
        (∀ j, j < (divergencesOf trueModalities d).length →
          (divergencesOf trueModalities d).getD i 0 ≤
            (divergencesOf trueModalities d).getD j 0) ∧
        (∀ k, k < i →
          (divergencesOf trueModalities d).getD i 0 <
            (divergencesOf trueModalities d).getD k 0) := by
  refine ⟨rfl, ?_⟩
  intro col d h
  have hne : divergencesOf trueModalities d ≠ [] := by
    simp [divergencesOf, trueModalities]
  obtain ⟨h1, h2, h3⟩ := argminReal_spec (divergencesOf trueModalities d) hne
  refine ⟨argminReal (divergencesOf trueModalities d), ?_, ?_, h2, h3⟩
  · simpa [divergencesOf, trueModalities, modalitiesNames] using h1
  · unfold assignCol
    rw [h, sqrtJsdCol_some, npArgmin_map_some]
    rfl

/-- Witness for C1 at the spec's end-to-end example: ten PSI values in the
excluded bin give the defined binned distribution `(1, 0, 0)`. -/
theorem C1_single_pass_argmin_witness :
    binifyCol defaultBins exampleCol = some (1, 0, 0) ∧
    (∃ i, i < modalitiesNames.length ∧
      assignCol trueModalities defaultBins exampleCol = modalitiesNames.getD i "" ∧
      (∀ j, j < (divergencesOf trueModalities (1, 0, 0)).length →
        (divergencesOf trueModalities (1, 0, 0)).getD i 0 ≤
          (divergencesOf trueModalities (1, 0, 0)).getD j 0) ∧
      (∀ k, k < i →
        (divergencesOf trueModalities (1, 0, 0)).getD i 0 <
          (divergencesOf trueModalities (1, 0, 0)).getD k 0)) :=
  ⟨by norm_num [binifyCol, exampleCol, defaultBins, List.filterMap, List.countP,
     List.countP.go],
   (C1_single_pass_argmin defaultBins []).2 exampleCol (1, 0, 0)
     (by norm_num [binifyCol, exampleCol, defaultBins, List.filterMap, List.countP,
       List.countP.go])⟩

/-- C2 (code bug): an event whose values are all missing has an undefined
binned distribution and all five divergences NaN, yet
`Modalities.assignments` assigns it "excluded" — `np.argmin` over the all-NaN
column returns the position of the first NaN, 0, and row 0 of the reference
table is "excluded" — instead of the missing (NaN) assignment the claim
requires. -/
theorem C2_no_data_assigned_excluded :
    binifyCol defaultBins [none, none] = none ∧
    sqrtJsdCol trueModalities (binifyCol defaultBins [none, none]) =
      [none, none, none, none, none] ∧
    singleAssignments trueModalities defaultBins psiNoData =
      [("event1", "excluded")] := by
  refine ⟨rfl, rfl, rfl⟩

/-- C3 counterexample: with 2 samples, the identity permutation and the only
possible pool draws form a valid Bootstrap outcome, yet splicing.py line 174
(`index = train_index + test_index`, numpy elementwise addition) yields the
row positions `[1]`: sample 0 is never used and sample 1 is used once, so the
trial's row set is not a cover of every original sample index exactly once,
and the selected sub-matrix holds only row 1. -/
theorem C3_bootstrap_rows_counterexample :
    validDraw 2 drawTwo ∧
    trialPositions 2 drawTwo = some [1] ∧
    ¬ List.Perm [1] (List.range 2) ∧
    selectRows psiTwo [1] = some [("event1", [some 1])] := by
  refine ⟨by decide, by decide, by decide, by decide⟩

/-- C3 as amended: a trial's row positions are the numpy elementwise sums of
the with-replacement train resample and the with-replacement test resample
(well-defined when the two have equal length, i.e. the row count is even);
the trial then selects the rows at those positions and drops the events with
fewer than `min_samples` non-missing values among them. -/
theorem C3_trial_construction (data : Psi) (minS : ℕ) (d : TrialDraw)
    (hv : validDraw (nRows data) d) (he : Even (nRows data)) :
    ∃ pos, trialPositions (nRows data) d = some pos ∧
      pos = List.zipWith (fun x y => x + y)
        (bsTrainIdx (nRows data) d) (bsTestIdx (nRows data) d) ∧
      pos.length = trainSize (nRows data) ∧
      trialMatrix data minS (nRows data) d =
        (selectRows data pos).map (dropColsThresh minS) ∧
      ∀ m, selectRows data pos = some m →
        ∀ c, c ∈ dropColsThresh minS m ↔ c ∈ m ∧ minS ≤ countNonMissing c.2 := by
  obtain ⟨hperm, hltr, _, hlte, _⟩ := hv
  obtain ⟨k, hk⟩ := he
  have heq : trainSize (nRows data) = nRows data - trainSize (nRows data) := by
    unfold trainSize
    omega
  have hlen : (bsTrainIdx (nRows data) d).length = (bsTestIdx (nRows data) d).length := by
    simp only [bsTrainIdx, bsTestIdx, List.length_map, hltr, hlte, ← heq]
  have hpos : trialPositions (nRows data) d =
      some (List.zipWith (fun x y => x + y)
        (bsTrainIdx (nRows data) d) (bsTestIdx (nRows data) d)) := by
    simp [trialPositions, npAddIndex, hlen]
  refine ⟨_, hpos, rfl, ?_, ?_, ?_⟩
  · rw [List.length_zipWith]
    simp only [bsTrainIdx, bsTestIdx, List.length_map, hltr, hlte, ← heq, min_self]
  · simp [trialMatrix, hpos, Option.bind]
  · intro m _ c
    simp [dropColsThresh, List.mem_filter]

/-- Witness for C3 at the 2-sample matrix and the concrete valid draw. -/
theorem C3_trial_construction_witness :
    validDraw (nRows psiTwo) drawTwo ∧ Even (nRows psiTwo) ∧
    (∃ pos, trialPositions (nRows psiTwo) drawTwo = some pos ∧
      pos = List.zipWith (fun x y => x + y)
        (bsTrainIdx (nRows psiTwo) drawTwo) (bsTestIdx (nRows psiTwo) drawTwo) ∧
      pos.length = trainSize (nRows psiTwo) ∧
      trialMatrix psiTwo 1 (nRows psiTwo) drawTwo =
        (selectRows psiTwo pos).map (dropColsThresh 1) ∧
      ∀ m, selectRows psiTwo pos = some m →
        ∀ c, c ∈ dropColsThresh 1 m ↔ c ∈ m ∧ 1 ≤ countNonMissing c.2) :=
  ⟨by decide, by decide,
   C3_trial_construction psiTwo 1 drawTwo (by decide) (by decide)⟩

theorem pickMax_ne_none (a : String × ℚ) (rest : List (String × ℚ)) :
    pickMax (a :: rest) ≠ none := by
  have hdef : pickMax (a :: rest) = match pickMax rest with
      | none => some a
      | some q => if q.2 ≤ a.2 then some a else some q := rfl
  rw [hdef]
  cases pickMax rest with
  | none => simp
  | some q =>
    by_cases hle : q.2 ≤ a.2 <;> simp [hle]

theorem pickMax_spec (l : List (String × ℚ)) (p : String × ℚ)
    (h : pickMax l = some p) : p ∈ l ∧ ∀ q ∈ l, q.2 ≤ p.2 := by
  induction l generalizing p with
  | nil => simp [pickMax] at h
  | cons a rest ih =>
    have hdef : pickMax (a :: rest) = match pickMax rest with
        | none => some a
        | some q => if q.2 ≤ a.2 then some a else some q := rfl
    rw [hdef] at h
    cases hrest : pickMax rest with
    | none =>
      rw [hrest] at h
      simp only [Option.some.injEq] at h
      subst h
      have hnil : rest = [] := by
        cases rest with
        | nil => rfl
        | cons b bs => exact absurd hrest (pickMax_ne_none b bs)
      subst hnil
      exact ⟨List.mem_cons_self a [], by simp⟩
    | some q =>
      rw [hrest] at h
      have h2 : (if q.2 ≤ a.2 then some a else some q) = some p := h
      obtain ⟨hq_mem, hq_max⟩ := ih q hrest
      by_cases hle : q.2 ≤ a.2
      · rw [if_pos hle] at h2
        simp only [Option.some.injEq] at h2
        subst h2
        refine ⟨List.mem_cons_self _ _, ?_⟩
        intro r hr
        rcases List.mem_cons.mp hr with h1 | h1
        · subst h1; exact le_refl _
        · exact le_trans (hq_max r h1) hle
      · rw [if_neg hle] at h2
        simp only [Option.some.injEq] at h2
        subst h2
        refine ⟨List.mem_cons_of_mem a hq_mem, ?_⟩
        intro r hr
        rcases List.mem_cons.mp hr with h1 | h1
        · subst h1; exact (not_le.mp hle).le
        · exact hq_max r h1

theorem voteCount_pos_iff (votes : List (Option String)) (m : String) :
    0 < voteCount votes m ↔ some m ∈ votes := by
  unfold voteCount
  rw [List.countP_pos_iff]
  constructor
  · rintro ⟨a, ha, hb⟩
    rwa [show a = some m from by simpa using hb] at ha
  · intro h
    exact ⟨some m, h, by simp⟩

theorem voteCount_le_total (votes : List (Option String)) (m : String) :
    voteCount votes m ≤ voteTotal votes := by
  unfold voteCount voteTotal
  apply List.countP_mono_left
  intro a _ hb
  have : a = some m := by simpa using hb
  subst this
  rfl

theorem fractionOf_le_one (votes : List (Option String)) (m : String) :
    fractionOf votes m ≤ 1 := by
  unfold fractionOf
  rcases Nat.eq_zero_or_pos (voteTotal votes) with h | h
  · have hc : voteCount votes m = 0 :=
      Nat.le_zero.mp (h ▸ voteCount_le_total votes m)
    simp [h, hc]
  · rw [div_le_one (by exact_mod_cast h)]
    exact_mod_cast voteCount_le_total votes m

theorem fractionOf_nonneg (votes : List (Option String)) (m : String) :
    0 ≤ fractionOf votes m := by
  unfold fractionOf
  positivity

theorem fractionOf_zero_of_not_mem (votes : List (Option String)) (m : String)
    (h : some m ∉ votes) : fractionOf votes m = 0 := by
  have hc : voteCount votes m = 0 := by
    by_contra hne
    exact h ((voteCount_pos_iff votes m).mp (Nat.pos_of_ne_zero hne))
  simp [fractionOf, hc]

theorem voteTotal_eq_filterMap (votes : List (Option String)) :
    voteTotal votes = (votes.filterMap id).length := by
  induction votes with
  | nil => rfl
  | cons v rest ih =>
    cases v <;> simp [voteTotal, List.countP_cons, ih] <;>
      simp [voteTotal] at ih <;> omega

theorem maskedList_mem (order : List String) (thresh : ℚ)
    (votes : List (Option String)) (p : String × ℚ) :
    p ∈ order.filterMap
      (fun m => (maskedFraction thresh votes m).map (fun v => (m, v))) ↔
    (p.1 ∈ order ∧ 0 < voteCount votes p.1 ∧ thresh ≤ fractionOf votes p.1 ∧
      p.2 = fractionOf votes p.1) := by
  rw [List.mem_filterMap]
  constructor
  · rintro ⟨m, hm, hf⟩
    unfold maskedFraction at hf
    by_cases hc : 0 < voteCount votes m ∧ thresh ≤ fractionOf votes m
    · rw [if_pos hc] at hf
      simp only [Option.map_some', Option.some.injEq] at hf
      subst hf
      exact ⟨hm, hc.1, hc.2, rfl⟩
    · rw [if_neg hc] at hf
      simp at hf
  · rintro ⟨h1, h2, h3, h4⟩
    refine ⟨p.1, h1, ?_⟩
    unfold maskedFraction
    rw [if_pos ⟨h2, h3⟩]
    simp only [Option.map_some', Option.some.injEq]
    exact Prod.ext rfl h4.symm

/-- C4: the bootstrapped consensus step.  Vote fractions are taken out of the
non-dropped votes only (`voteTotal` counts the trials where the event was
present); the result is "unassigned" exactly when no voted modality reaches
the threshold (in particular with zero valid trials), and otherwise it is a
modality whose vote fraction reaches the threshold and is maximal among all
modalities.  `order` is the iteration order of the event's Counter keys,
constrained only to enumerate exactly the voted modalities. -/
theorem C4_consensus_tally (votes : List (Option String)) (order : List String)
    (thresh : ℚ)
    (horder : ∀ m, m ∈ order ↔ some m ∈ votes)
    (hnu : some "unassigned" ∉ votes) :
    voteTotal votes = (votes.filterMap id).length ∧
    (tallyVotes order thresh votes = "unassigned" ↔
      ¬∃ m, some m ∈ votes ∧ thresh ≤ fractionOf votes m) ∧
    (tallyVotes order thresh votes ≠ "unassigned" →
      some (tallyVotes order thresh votes) ∈ votes ∧
      thresh ≤ fractionOf votes (tallyVotes order thresh votes) ∧
      ∀ m, fractionOf votes m ≤ fractionOf votes (tallyVotes order thresh votes)) := by
  refine ⟨voteTotal_eq_filterMap votes, ?_⟩
  set fl := order.filterMap
    (fun m => (maskedFraction thresh votes m).map (fun v => (m, v))) with hfl
  cases hpick : pickMax fl with
  | none =>
    have flnil : fl = [] := by
      cases hfl2 : fl with
      | nil => rfl
      | cons b bs =>
        rw [hfl2] at hpick
        exact absurd hpick (pickMax_ne_none b bs)
    have hres : tallyVotes order thresh votes = "unassigned" := by
      simp [tallyVotes, maxAssignment, ← hfl, hpick]
    constructor
    · rw [hres]
      simp only [true_iff]
      rintro ⟨m, hmv, hmf⟩
      have hmem : (m, fractionOf votes m) ∈ fl := by
        rw [hfl, maskedList_mem]
        exact ⟨(horder m).mpr hmv, (voteCount_pos_iff votes m).mpr hmv, hmf, rfl⟩
      rw [flnil] at hmem
      exact absurd hmem (List.not_mem_nil _)
    · intro hne
      exact absurd hres hne
  | some p =>
    have hres : tallyVotes order thresh votes = p.1 := by
      simp [tallyVotes, maxAssignment, ← hfl, hpick]
    obtain ⟨hp_mem, hp_max⟩ := pickMax_spec fl p hpick
    obtain ⟨hp_ord, hp_cnt, hp_th, hp_val⟩ := (maskedList_mem order thresh votes p).mp
      (hfl ▸ hp_mem)
    have hp_votes : some p.1 ∈ votes := (horder p.1).mp hp_ord
    have hne : p.1 ≠ "unassigned" := by
      intro hcontra
      rw [hcontra] at hp_votes
      exact hnu hp_votes
    constructor
    · rw [hres]
      constructor
      · intro h
        exact absurd h hne
      · intro h
        exact absurd ⟨p.1, hp_votes, hp_th⟩ h
    · intro _
      rw [hres]
      refine ⟨hp_votes, hp_th, ?_⟩
      intro m
      by_cases hm : some m ∈ votes ∧ thresh ≤ fractionOf votes m
      · have hmem : (m, fractionOf votes m) ∈ fl := by
          rw [hfl, maskedList_mem]
          exact ⟨(horder m).mpr hm.1, (voteCount_pos_iff votes m).mpr hm.1, hm.2, rfl⟩
        have := hp_max _ hmem
        simpa [hp_val] using this
      · push_neg at hm
        by_cases hmv : some m ∈ votes
        · have hlt : fractionOf votes m < thresh := hm hmv
          exact le_of_lt (lt_of_lt_of_le hlt hp_th)
        · rw [fractionOf_zero_of_not_mem votes m hmv]
          exact fractionOf_nonneg votes p.1

/-- Witness for C4 at a concrete vote column: three trials, two votes for
excluded and one for middle, threshold 3/5. -/
theorem C4_consensus_tally_witness :
    (∀ m, m ∈ ["excluded", "middle"] ↔
      some m ∈ [some "excluded", some "excluded", some "middle"]) ∧
    some "unassigned" ∉ [some "excluded", some "excluded", some "middle"] ∧
    (voteTotal [some "excluded", some "excluded", some "middle"] =
      (([some "excluded", some "excluded", some "middle"] :
        List (Option String)).filterMap id).length ∧
    (tallyVotes ["excluded", "middle"] (3/5)
        [some "excluded", some "excluded", some "middle"] = "unassigned" ↔
      ¬∃ m, some m ∈ [some "excluded", some "excluded", some "middle"] ∧
        3/5 ≤ fractionOf [some "excluded", some "excluded", some "middle"] m) ∧
    (tallyVotes ["excluded", "middle"] (3/5)
        [some "excluded", some "excluded", some "middle"] ≠ "unassigned" →
      some (tallyVotes ["excluded", "middle"] (3/5)
        [some "excluded", some "excluded", some "middle"]) ∈
        [some "excluded", some "excluded", some "middle"] ∧
      3/5 ≤ fractionOf [some "excluded", some "excluded", some "middle"]
        (tallyVotes ["excluded", "middle"] (3/5)
          [some "excluded", some "excluded", some "middle"]) ∧
      ∀ m, fractionOf [some "excluded", some "excluded", some "middle"] m ≤
        fractionOf [some "excluded", some "excluded", some "middle"]
          (tallyVotes ["excluded", "middle"] (3/5)
            [some "excluded", some "excluded", some "middle"]))) := by
  have horder : ∀ m, m ∈ ["excluded", "middle"] ↔
      some m ∈ [some "excluded", some "excluded", some "middle"] := by
    intro m
    simp only [List.mem_cons, List.not_mem_nil, or_false, Option.some.injEq]
    tauto
  exact ⟨horder, by decide,
    C4_consensus_tally [some "excluded", some "excluded", some "middle"]
      ["excluded", "middle"] (3/5) horder (by decide)⟩

theorem tallyVotes_of_no_qualifier (order : List String) (thresh : ℚ)
    (votes : List (Option String))
    (h : ∀ m, maskedFraction thresh votes m = none) :
    tallyVotes order thresh votes = "unassigned" := by
  unfold tallyVotes maxAssignment
  have hnil : order.filterMap
      (fun m => (maskedFraction thresh votes m).map (fun v => (m, v))) = [] := by
    rw [List.filterMap_eq_nil_iff]
    intro m _
    rw [h m]
    rfl
  rw [hnil]
  rfl

/-- C5 counterexample: the configuration `excluded_max = 9/10`,
`included_min = 1/10` violates the spec's bin-edge invariant, yet
`Modalities.__init__` completes normally, storing the invalid edges
unchanged — no error is raised at construction. -/
theorem C5_no_validation_counterexample :
    Modalities.init (9/10) (1/10) = ⟨(0, 9/10, 1/10, 1)⟩ ∧
    specConfigValid (9/10) (1/10) 100 (3/5) = false := by
  refine ⟨rfl, ?_⟩
  simp only [specConfigValid, decide_eq_false_iff_not]
  intro hcontra
  norm_num at hcontra

/-- C5 as amended: the estimator performs no configuration validation at all.
`__init__` stores any bin edges unchanged; `_bootstrapped_fit_transform`
checks neither `n_iter` nor `thresh` at entry: a non-positive `n_iter` runs
zero trials and silently returns "unassigned" for every event, and a
threshold above 1 is used as-is, making every event "unassigned". -/
theorem C5_no_config_validation :
    (∀ em im : ℚ, (Modalities.init em im).bins = (0, em, im, 1)) ∧
    (∀ (inst : Modalities) (st : PyState) (thresh : ℚ) (minS : ℕ)
      (draws : List TrialDraw) (orders : String → List String) (ni : ℤ),
      ni ≤ 0 →
      (bootstrappedFitTransformSt inst st ni thresh minS draws orders).2 =
        some (st.data.map (fun c => (c.1, "unassigned")))) ∧
    (∀ (votes : List (Option String)) (order : List String) (thresh : ℚ),
      1 < thresh → tallyVotes order thresh votes = "unassigned") := by
  refine ⟨fun em im => rfl, ?_, ?_⟩
  · intro inst st thresh minS draws orders ni hni
    have h0 : ni.toNat = 0 := Int.toNat_of_nonpos hni
    unfold bootstrappedFitTransformSt
    rw [h0]
    simp only [List.range_zero, List.map_nil, bootLoopSt, Option.map_some']
    have hc : ∀ c ∈ st.data,
        (c.1, tallyVotes (orders c.1) thresh (votesFor st.clsTable inst.bins [] c.1)) =
        (c.1, "unassigned") := by
      intro c _
      rw [tallyVotes_of_no_qualifier]
      intro m
      simp [votesFor, maskedFraction, voteCount]
    rw [List.map_congr_left hc]
  · intro votes order thresh hth
    apply tallyVotes_of_no_qualifier
    intro m
    unfold maskedFraction
    rw [if_neg]
    rintro ⟨_, h2⟩
    exact absurd (h2.trans (fractionOf_le_one votes m)) (not_le.mpr hth)

/-- Witness for C5 at concrete inputs: a negative `n_iter` and a threshold
above 1 are both accepted silently. -/
theorem C5_no_config_validation_witness :
    ((-3 : ℤ) ≤ 0) ∧ ((1 : ℚ) < 2) ∧
    (Modalities.init (9/10) (1/10)).bins = (0, 9/10, 1/10, 1) ∧
    (bootstrappedFitTransformSt (Modalities.init (1/5) (4/5)) (initState psiTwo)
      (-3) (3/5) 10 [] (fun _ => [])).2 =
      some ((initState psiTwo).data.map (fun c => (c.1, "unassigned"))) ∧
    tallyVotes [] 2 [some "excluded"] = "unassigned" :=
  ⟨by decide, by norm_num,
   C5_no_config_validation.1 (9/10) (1/10),
   C5_no_config_validation.2.1 (Modalities.init (1/5) (4/5)) (initState psiTwo)
     (3/5) 10 [] (fun _ => []) (-3) (by decide),
   C5_no_config_validation.2.2 [some "excluded"] [] 2 (by norm_num)⟩

theorem groupbySize_eq_count (a : List (String × Option String)) (m : String) :
    groupbySize a m = (a.filterMap (fun p => p.2)).count m := by
  induction a with
  | nil => rfl
  | cons p rest ih =>
    rcases p with ⟨n, v⟩
    cases v with
    | none => simpa [groupbySize, List.countP_cons, List.count_cons] using ih
    | some s =>
      simp only [groupbySize, List.countP_cons, List.filterMap_cons_some,
        List.count_cons]
      simp only [groupbySize] at ih
      rw [ih]
      by_cases hs : s = m
      · simp [hs]
      · simp [hs, Ne.symm hs]

theorem length_filterMap_snd (a : List (String × Option String)) :
    (a.filterMap (fun p => p.2)).length = a.countP (fun p => p.2.isSome) := by
  induction a with
  | nil => rfl
  | cons p rest ih =>
    rcases p with ⟨n, v⟩
    cases v with
    | none => simp [List.countP_cons, ih]
    | some s => simp [List.countP_cons, ih]

/-- C6: `counts` simply groups the `fit_transform` output by assignment value
and returns group sizes: per label it counts exactly the events assigned that
label ("unassigned" included, when present, like any other value); events
with a missing assignment belong to no group, and nothing else is dropped —
the group sizes of the occurring values sum to the number of events with a
non-missing assignment. -/
theorem C6_counts_groupby :
    (∀ (inst : Modalities) (st : PyState) (b : Bool) (ni : ℤ) (thresh : ℚ)
      (minS : ℕ) (draws : List TrialDraw) (orders : String → List String),
      (countsSt inst st b ni thresh minS draws orders).2 =
        (fitTransformSt inst st b ni thresh minS draws orders).2.map
          (fun A => groupbySize (A.map (fun p => (p.1, some p.2))))) ∧
    (∀ (a : List (String × Option String)) (l : String),
      groupbySize a l = (a.filter (fun p => p.2 == some l)).length) ∧
    (∀ a : List (String × Option String),
      ((a.filterMap (fun p => p.2)).dedup.map (fun l => groupbySize a l)).sum =
        a.countP (fun p => p.2.isSome)) := by
  refine ⟨fun inst st b ni thresh minS draws orders => rfl, ?_, ?_⟩
  · intro a l
    unfold groupbySize
    exact List.countP_eq_length_filter _ _
  · intro a
    have h1 : ∀ l, groupbySize a l = (a.filterMap (fun p => p.2)).count l :=
      groupbySize_eq_count a
    calc ((a.filterMap (fun p => p.2)).dedup.map (fun l => groupbySize a l)).sum
        = ((a.filterMap (fun p => p.2)).dedup.map
            (fun l => (a.filterMap (fun p => p.2)).count l)).sum := by
          congr 1
          exact List.map_congr_left (fun l _ => h1 l)
      _ = (a.filterMap (fun p => p.2)).length :=
          List.sum_map_count_dedup_eq_length _
      _ = a.countP (fun p => p.2.isSome) := length_filterMap_snd a

theorem bootLoopSt_data (inst : Modalities) (minS n : ℕ) (st : PyState)
    (ds : List TrialDraw) : (bootLoopSt inst minS n st ds).1.data = st.data := by
  induction ds generalizing st with
  | nil => rfl
  | cons d rest ih =>
    rw [bootLoopSt]
    cases htm : trialMatrix st.data minS n d with
    | none => rfl
    | some t =>
      simp only [htm]
      exact ih { st with clsIndex := binifyIndex inst.bins }

/-- C7: no `fit_transform` call (single-pass or bootstrapped), nor `counts`,
mutates the caller's input matrix: the `data` component of the Python state
is unchanged by every call, in both modes, whether or not the bootstrapped
row selection fails. -/
theorem C7_input_not_mutated (inst : Modalities) (st : PyState) (b : Bool)
    (ni : ℤ) (thresh : ℚ) (minS : ℕ) (draws : List TrialDraw)
    (orders : String → List String) :
    (fitTransformSt inst st b ni thresh minS draws orders).1.data = st.data ∧
    (countsSt inst st b ni thresh minS draws orders).1.data = st.data := by
  have hfit : (fitTransformSt inst st b ni thresh minS draws orders).1.data = st.data := by
    unfold fitTransformSt
    by_cases hb : b
    · rw [if_pos hb]
      unfold bootstrappedFitTransformSt
      exact bootLoopSt_data inst minS (nRows st.data) st _
    · rw [if_neg hb]
      rfl
  exact ⟨hfit, hfit⟩

/-- C8 counterexample: a single `_single_fit_transform` call on the 2-sample
matrix changes the Python state — splicing.py line 160 reassigns the
class-shared reference table's index from its original `RangeIndex`
`[0, 1, 2]` to the binned frame's index `[0, 1/5, 4/5]`, so the state after
the call differs from the state before it. -/
theorem C8_state_mutation_counterexample :
    (singleFitSt (Modalities.init (1/5) (4/5)) (initState psiTwo) psiTwo).1 ≠
      initState psiTwo := by
  intro h
  have hidx := congrArg PyState.clsIndex h
  simp only [singleFitSt, initState, Modalities.init, binifyIndex] at hidx
  norm_num at hidx

/-- C8 as amended: each single-pass fit leaves the caller's matrix, the
reference table's column contents and the instance's bin configuration
unchanged, but it does mutate shared class state: the reference table's row
index is reassigned to the binned frame's index (splicing.py line 160).
(The `@memoize` cache on `fit_transform`, from the missing flotilla.util
module, is further instance state mutated by calls; it is not modelled.) -/
theorem C8_single_fit_state_change (inst : Modalities) (st : PyState) (data : Psi) :
    (singleFitSt inst st data).1.data = st.data ∧
    (singleFitSt inst st data).1.clsTable = st.clsTable ∧
    (singleFitSt inst st data).1.clsIndex = binifyIndex inst.bins ∧
    (singleFitSt inst st data).2 = singleAssignments st.clsTable inst.bins data :=
  ⟨rfl, rfl, rfl, rfl⟩

theorem meanR_le (l : List ℝ) (c : ℝ) (h0 : l ≠ []) (h : ∀ x ∈ l, x ≤ c) :
    meanR l ≤ c := by
  have hlen : 0 < (l.length : ℝ) :=
    Nat.cast_pos.mpr (List.length_pos.mpr h0)
  unfold meanR
  rw [div_le_iff₀ hlen]
  have hs := List.sum_le_card_nsmul l c h
  rwa [nsmul_eq_mul, mul_comm] at hs

theorem le_meanR (l : List ℝ) (c : ℝ) (h0 : l ≠ []) (h : ∀ x ∈ l, c ≤ x) :
    c ≤ meanR l := by
  have hlen : 0 < (l.length : ℝ) :=
    Nat.cast_pos.mpr (List.length_pos.mpr h0)
  unfold meanR
  rw [le_div_iff₀ hlen]
  have hs := List.card_nsmul_le_sum l c h
  rwa [nsmul_eq_mul, mul_comm] at hs

theorem stdR_le (l : List ℝ) (c : ℝ) (hc : 0 ≤ c) (h0 : l ≠ [])
    (h : ∀ x ∈ l, |x - meanR l| ≤ c) : stdR l ≤ c := by
  have hlen : 0 < (l.length : ℝ) :=
    Nat.cast_pos.mpr (List.length_pos.mpr h0)
  have hvar : varR l ≤ c ^ 2 := by
    unfold varR
    rw [div_le_iff₀ hlen]
    have hb : ∀ y ∈ l.map (fun x => (x - meanR l) ^ 2), y ≤ c ^ 2 := by
      intro y hy
      obtain ⟨x, hx, rfl⟩ := List.mem_map.mp hy
      have habs := h x hx
      calc (x - meanR l) ^ 2 = |x - meanR l| ^ 2 := (sq_abs _).symm
        _ ≤ c ^ 2 := by nlinarith [abs_nonneg (x - meanR l)]
    have hs := List.sum_le_card_nsmul _ (c ^ 2) hb
    rwa [nsmul_eq_mul, List.length_map, mul_comm] at hs
  unfold stdR
  calc Real.sqrt (varR l) ≤ Real.sqrt (c ^ 2) := Real.sqrt_le_sqrt hvar
    _ = c := by rw [Real.sqrt_sq hc]

theorem sqrt_two_div_two_pos : 0 < Real.sqrt 2 / 2 := by positivity

theorem sqrt_two_div_two_lt_one : Real.sqrt 2 / 2 < 1 := by
  have h2 : Real.sqrt 2 < 2 := by
    nlinarith [Real.sq_sqrt (show (0:ℝ) ≤ 2 by norm_num), Real.sqrt_nonneg 2]
  linarith

theorem sin_bounds_low (x : ℝ) (h1 : 0 ≤ x) (h2 : x ≤ 1/4) :
    0 ≤ Real.sin (x * Real.pi) ∧ Real.sin (x * Real.pi) ≤ Real.sqrt 2 / 2 := by
  have hπ := Real.pi_pos
  have hxp1 : 0 ≤ x * Real.pi := mul_nonneg h1 hπ.le
  have hxp2 : x * Real.pi ≤ Real.pi / 4 := by
    calc x * Real.pi ≤ 1/4 * Real.pi := mul_le_mul_of_nonneg_right h2 hπ.le
      _ = Real.pi / 4 := by ring
  constructor
  · exact Real.sin_nonneg_of_nonneg_of_le_pi hxp1 (by linarith)
  · have hs := Real.sin_le_sin_of_le_of_le_pi_div_two
      (by linarith : -(Real.pi/2) ≤ x * Real.pi)
      (by linarith : Real.pi/4 ≤ Real.pi/2) hxp2
    rwa [Real.sin_pi_div_four] at hs

theorem cos_bound_low (x : ℝ) (h1 : 0 ≤ x) (h2 : x ≤ 1/4) :
    Real.sqrt 2 / 2 ≤ Real.cos (x * Real.pi) := by
  have hπ := Real.pi_pos
  have hxp1 : 0 ≤ x * Real.pi := mul_nonneg h1 hπ.le
  have hxp2 : x * Real.pi ≤ Real.pi / 4 := by
    calc x * Real.pi ≤ 1/4 * Real.pi := mul_le_mul_of_nonneg_right h2 hπ.le
      _ = Real.pi / 4 := by ring
  have hs := Real.cos_le_cos_of_nonneg_of_le_pi hxp1
    (by linarith : Real.pi/4 ≤ Real.pi) hxp2
  rwa [Real.cos_pi_div_four] at hs

theorem sin_bounds_high (x : ℝ) (h1 : 3/4 ≤ x) (h2 : x ≤ 1) :
    0 ≤ Real.sin (x * Real.pi) ∧ Real.sin (x * Real.pi) ≤ Real.sqrt 2 / 2 := by
  have hπ := Real.pi_pos
  have hs : Real.sin (x * Real.pi) = Real.sin (Real.pi - x * Real.pi) :=
    (Real.sin_pi_sub _).symm
  have ht1 : 0 ≤ Real.pi - x * Real.pi := by nlinarith
  have ht2 : Real.pi - x * Real.pi ≤ Real.pi / 4 := by nlinarith
  rw [hs]
  constructor
  · exact Real.sin_nonneg_of_nonneg_of_le_pi ht1 (by linarith)
  · have h3 := Real.sin_le_sin_of_le_of_le_pi_div_two
      (by linarith : -(Real.pi/2) ≤ Real.pi - x * Real.pi)
      (by linarith : Real.pi/4 ≤ Real.pi/2) ht2
    rwa [Real.sin_pi_div_four] at h3

theorem cos_bound_high (x : ℝ) (h1 : 3/4 ≤ x) (h2 : x ≤ 1) :
    Real.cos (x * Real.pi) ≤ -(Real.sqrt 2 / 2) := by
  have hπ := Real.pi_pos
  have ht1 : 0 ≤ 3 * Real.pi / 4 := by linarith
  have ht2 : x * Real.pi ≤ Real.pi := by nlinarith
  have ht3 : 3 * Real.pi / 4 ≤ x * Real.pi := by nlinarith
  have hs := Real.cos_le_cos_of_nonneg_of_le_pi ht1 ht2 ht3
  have h34 : (3 : ℝ) * Real.pi / 4 = Real.pi - Real.pi / 4 := by ring
  rwa [h34, Real.cos_pi_sub, Real.cos_pi_div_four] at hs

theorem score_neg_of_low (v : List ℝ) (h0 : v ≠ []) (h : ∀ x ∈ v, 0 ≤ x ∧ x ≤ 1/4) :
    (1 - stdR (v.map (fun x => Real.sin (x * Real.pi)))) *
      (-(meanR (v.map (fun x => Real.cos (x * Real.pi))))) < 0 := by
  set c := Real.sqrt 2 / 2 with hc
  have hc_pos : 0 < c := sqrt_two_div_two_pos
  have hc_lt : c < 1 := sqrt_two_div_two_lt_one
  set sins := v.map (fun x => Real.sin (x * Real.pi)) with hsins
  set coss := v.map (fun x => Real.cos (x * Real.pi)) with hcoss
  have hsins0 : sins ≠ [] := by
    rw [hsins]
    simpa using h0
  have hcoss0 : coss ≠ [] := by
    rw [hcoss]
    simpa using h0
  have hsin : ∀ y ∈ sins, 0 ≤ y ∧ y ≤ c := by
    intro y hy
    obtain ⟨x, hx, rfl⟩ := List.mem_map.mp hy
    exact sin_bounds_low x (h x hx).1 (h x hx).2
  have hμ1 : 0 ≤ meanR sins := le_meanR sins 0 hsins0 (fun y hy => (hsin y hy).1)
  have hμ2 : meanR sins ≤ c := meanR_le sins c hsins0 (fun y hy => (hsin y hy).2)
  have hdev : ∀ y ∈ sins, |y - meanR sins| ≤ c := by
    intro y hy
    exact abs_le.mpr ⟨by linarith [(hsin y hy).1], by linarith [(hsin y hy).2]⟩
  have hstd : stdR sins ≤ c := stdR_le sins c hc_pos.le hsins0 hdev
  have hvt : 0 < 1 - stdR sins := by linarith
  have hcosb : ∀ y ∈ coss, c ≤ y := by
    intro y hy
    obtain ⟨x, hx, rfl⟩ := List.mem_map.mp hy
    exact cos_bound_low x (h x hx).1 (h x hx).2
  have hmean : c ≤ meanR coss := le_meanR coss c hcoss0 hcosb
  have hmt : -(meanR coss) < 0 := by linarith
  exact mul_neg_of_pos_of_neg hvt hmt

theorem score_pos_of_high (v : List ℝ) (h0 : v ≠ []) (h : ∀ x ∈ v, 3/4 ≤ x ∧ x ≤ 1) :
    0 < (1 - stdR (v.map (fun x => Real.sin (x * Real.pi)))) *
      (-(meanR (v.map (fun x => Real.cos (x * Real.pi))))) := by
  set c := Real.sqrt 2 / 2 with hc
  have hc_pos : 0 < c := sqrt_two_div_two_pos
  have hc_lt : c < 1 := sqrt_two_div_two_lt_one
  set sins := v.map (fun x => Real.sin (x * Real.pi)) with hsins
  set coss := v.map (fun x => Real.cos (x * Real.pi)) with hcoss
  have hsins0 : sins ≠ [] := by
    rw [hsins]
    simpa using h0
  have hcoss0 : coss ≠ [] := by
    rw [hcoss]
    simpa using h0
  have hsin : ∀ y ∈ sins, 0 ≤ y ∧ y ≤ c := by
    intro y hy
    obtain ⟨x, hx, rfl⟩ := List.mem_map.mp hy
    exact sin_bounds_high x (h x hx).1 (h x hx).2
  have hμ1 : 0 ≤ meanR sins := le_meanR sins 0 hsins0 (fun y hy => (hsin y hy).1)
  have hμ2 : meanR sins ≤ c := meanR_le sins c hsins0 (fun y hy => (hsin y hy).2)
  have hdev : ∀ y ∈ sins, |y - meanR sins| ≤ c := by
    intro y hy
    exact abs_le.mpr ⟨by linarith [(hsin y hy).1], by linarith [(hsin y hy).2]⟩
  have hstd : stdR sins ≤ c := stdR_le sins c hc_pos.le hsins0 hdev
  have hvt : 0 < 1 - stdR sins := by linarith
  have hcosb : ∀ y ∈ coss, y ≤ -c := by
    intro y hy
    obtain ⟨x, hx, rfl⟩ := List.mem_map.mp hy
    exact cos_bound_high x (h x hx).1 (h x hx).2
  have hmean : meanR coss ≤ -c := meanR_le coss (-c) hcoss0 hcosb
  have hmt : 0 < -(meanR coss) := by linarith
  exact mul_pos hvt hmt

theorem switchy_score_eq (arr : List (Option ℝ)) (h0 : arr.filterMap id ≠ []) :
    switchy_score arr =
      some ((1 - stdR ((arr.filterMap id).map (fun x => Real.sin (x * Real.pi)))) *
        (-(meanR ((arr.filterMap id).map (fun x => Real.cos (x * Real.pi)))))) := by
  obtain ⟨y, ys, hv⟩ := List.exists_cons_of_ne_nil h0
  unfold switchy_score
  rw [hv]

theorem npArgsort_pair (x y : ℝ) (h : x < y) :
    npArgsort [some x, some y] = [0, 1] := by
  have hcond : ¬ ltOpt (([some x, some y] : List (Option ℝ)).getD 1 none)
      (([some x, some y] : List (Option ℝ)).getD 0 none) := by
    simp only [List.getD_cons_succ, List.getD_cons_zero, ltOpt, not_lt]
    exact h.le
  show scoreInsert [some x, some y] 1 (scoreInsert [some x, some y] 0 []) = [0, 1]
  rw [show scoreInsert [some x, some y] 0 [] = [0] from rfl]
  rw [scoreInsert, if_neg hcond]
  rfl

/-- C9: `switchy_score` computes, over the non-missing entries,
`(1 - std(sin(v*pi))) * (-mean(cos(v*pi)))`, and `get_switchy_score_order`
sorts the events ascending by this per-column score; consequently a column
whose values lie uniformly near 0 (within `[0, 1/4]`) is placed before a
column whose values lie uniformly near 1 (within `[3/4, 1]`). -/
theorem C9_switchy_order :
    (∀ arr : List (Option ℝ), arr.filterMap id ≠ [] →
      switchy_score arr =
        some ((1 - stdR ((arr.filterMap id).map (fun x => Real.sin (x * Real.pi)))) *
          (-(meanR ((arr.filterMap id).map (fun x => Real.cos (x * Real.pi))))))) ∧
    (∀ cols : List (List (Option ℝ)),
      get_switchy_score_order cols = npArgsort (cols.map switchy_score)) ∧
    (∀ a b : List (Option ℝ), a.filterMap id ≠ [] → b.filterMap id ≠ [] →
      (∀ x ∈ a.filterMap id, 0 ≤ x ∧ x ≤ 1/4) →
      (∀ x ∈ b.filterMap id, 3/4 ≤ x ∧ x ≤ 1) →
      get_switchy_score_order [a, b] = [0, 1]) := by
  refine ⟨switchy_score_eq, fun cols => rfl, ?_⟩
  intro a b ha hb hra hrb
  have hsa := switchy_score_eq a ha
  have hsb := switchy_score_eq b hb
  have hna := score_neg_of_low (a.filterMap id) ha hra
  have hpb := score_pos_of_high (b.filterMap id) hb hrb
  unfold get_switchy_score_order
  rw [show ([a, b] : List (List (Option ℝ))).map switchy_score =
    [switchy_score a, switchy_score b] from rfl, hsa, hsb]
  exact npArgsort_pair _ _ (lt_trans hna hpb)

/-- Witness for C9: the single-sample columns `[some 0]` and `[some 1]`. -/
theorem C9_switchy_order_witness :
    (([some (0:ℝ)] : List (Option ℝ)).filterMap id ≠ [] ∧
     ([some (1:ℝ)] : List (Option ℝ)).filterMap id ≠ [] ∧
     (∀ x ∈ ([some (0:ℝ)] : List (Option ℝ)).filterMap id, 0 ≤ x ∧ x ≤ 1/4) ∧
     (∀ x ∈ ([some (1:ℝ)] : List (Option ℝ)).filterMap id, 3/4 ≤ x ∧ x ≤ 1)) ∧
    get_switchy_score_order [[some (0:ℝ)], [some (1:ℝ)]] = [0, 1] := by
  have h1 : ([some (0:ℝ)] : List (Option ℝ)).filterMap id ≠ [] := by simp
  have h2 : ([some (1:ℝ)] : List (Option ℝ)).filterMap id ≠ [] := by simp
  have h3 : ∀ x ∈ ([some (0:ℝ)] : List (Option ℝ)).filterMap id, 0 ≤ x ∧ x ≤ 1/4 := by
    intro x hx
    simp only [List.filterMap_cons, id, List.filterMap_nil] at hx
    rcases List.mem_singleton.mp hx with rfl
    norm_num
  have h4 : ∀ x ∈ ([some (1:ℝ)] : List (Option ℝ)).filterMap id, 3/4 ≤ x ∧ x ≤ 1 := by
    intro x hx
    simp only [List.filterMap_cons, id, List.filterMap_nil] at hx
    rcases List.mem_singleton.mp hx with rfl
    norm_num
  exact ⟨⟨h1, h2, h3, h4⟩, C9_switchy_order.2.2 [some 0] [some 1] h1 h2 h3 h4⟩

/-- C10: an input array with no non-missing entries gets a missing (NaN)
switchy score, not a numeric one — `np.std` and `np.mean` of the empty
selection are NaN. -/
theorem C10_empty_switchy_score (arr : List (Option ℝ))
    (h : arr.filterMap id = []) : switchy_score arr = none := by
  unfold switchy_score
  rw [h]

/-- Witness for C10 at the concrete all-missing array `[none, none]`. -/
theorem C10_empty_switchy_score_witness :
    (([none, none] : List (Option ℝ)).filterMap id = []) ∧
    switchy_score [none, none] = none :=
  ⟨rfl, C10_empty_switchy_score [none, none] rfl⟩
